import Mathlib

/-!
Verification of the Focus serial request/reply engine
(keyboardio/focus-send: src/kaleidoscope/src/lib.rs and src/src/main.rs).

Strings are modelled as `List Char` (the Rust `String` contents), byte
buffers as `List Nat` (each entry one byte).  The serial port is modelled
as a deterministic oracle: a finite script of outcomes for each fallible
operation, together with an event trace recording every call made on the
port, in order.  A spent script means the environment stops misbehaving:
further control-line writes and chunk writes succeed, `bytes_to_read`
reports data available, and `read` times out (the device has gone silent).
-/

set_option autoImplicit false

/-! ### Rust string utilities -/

/-- Rust `slice::join(sep)` / `str::join`: concatenate with a separator
between consecutive elements and no trailing separator. -/
def joinWith (sep : List Char) : List (List Char) → List Char
  | [] => []
  | [x] => x
  | x :: y :: rest => x ++ sep ++ joinWith sep (y :: rest)

/-- Rust `str::split_inclusive('\n')`: cut the string after every newline,
keeping the newline at the end of each piece; a last piece without a
newline is kept as-is; the empty string yields no pieces. -/
def splitInclusiveNl : List Char → List (List Char)
  | [] => []
  | c :: rest =>
    if c = '\n' then ['\n'] :: splitInclusiveNl rest
    else
      match splitInclusiveNl rest with
      | [] => [[c]]
      | l :: ls => (c :: l) :: ls

/-- The per-piece map of Rust `str::lines`: strip one trailing newline if
present, and only then strip one trailing carriage return if present.
A carriage return not followed by a newline is kept. -/
def lineStrip (l : List Char) : List Char :=
  if l.getLast? = some '\n' then
    if l.dropLast.getLast? = some '\r' then l.dropLast.dropLast else l.dropLast
  else l

/-- Rust `str::lines`: split after newlines, then strip the terminators. -/
def rustLines (s : List Char) : List (List Char) :=
  (splitInclusiveNl s).map lineStrip

/-- The filter of `cleanup_reply` (src/src/main.rs lines 189-193) and of the
identical inline code in `Focus::read_reply` (src/kaleidoscope/src/lib.rs
lines 111-114): keep a line iff it is non-empty and not the sentinel ".". -/
def keepLine (l : List Char) : Bool :=
  (!l.isEmpty) && (l != ['.'])

/-- `cleanup_reply` (src/src/main.rs lines 188-194): split into lines,
drop empty and sentinel lines, rejoin with a single newline. -/
def cleanupReply (s : List Char) : List Char :=
  joinWith (['\n']) ((rustLines s).filter keepLine)

/-! ### UTF-8 encoding and lossy decoding -/

/-- Standard UTF-8 encoding of one scalar value. -/
def utf8EncodeChar (ch : Char) : List Nat :=
  let n := ch.toNat
  if n < 0x80 then [n]
  else if n < 0x800 then [0xC0 + n / 64, 0x80 + n % 64]
  else if n < 0x10000 then [0xE0 + n / 4096, 0x80 + (n / 64) % 64, 0x80 + n % 64]
  else [0xF0 + n / 262144, 0x80 + (n / 4096) % 64, 0x80 + (n / 64) % 64, 0x80 + n % 64]

/-- Rust `str::as_bytes`: the UTF-8 bytes of the string. -/
def utf8Encode : List Char → List Nat
  | [] => []
  | c :: cs => utf8EncodeChar c ++ utf8Encode cs

/-- The Unicode replacement character substituted for invalid sequences. -/
def uRepl : Char := Char.ofNat 0xFFFD

/-- Byte range test used by the UTF-8 validator. -/
def contB (lo hi b : Nat) : Bool := decide (lo ≤ b ∧ b ≤ hi)

/-- Valid second-byte lower bound for a three-byte lead. -/
def lo3 (b0 : Nat) : Nat := if b0 = 0xE0 then 0xA0 else 0x80

/-- Valid second-byte upper bound for a three-byte lead. -/
def hi3 (b0 : Nat) : Nat := if b0 = 0xED then 0x9F else 0xBF

/-- Valid second-byte lower bound for a four-byte lead. -/
def lo4 (b0 : Nat) : Nat := if b0 = 0xF0 then 0x90 else 0x80

/-- Valid second-byte upper bound for a four-byte lead. -/
def hi4 (b0 : Nat) : Nat := if b0 = 0xF4 then 0x8F else 0xBF

/-- Rust `String::from_utf8_lossy`: decode UTF-8, substituting U+FFFD for
each maximal invalid subpart (WHATWG policy, as implemented by
`core::str::validations::run_utf8_validation` and `Utf8Chunks`): on an
invalid byte the bytes of the longest valid prefix of a sequence are
replaced by one U+FFFD and decoding resumes at the offending byte; a
truncated final sequence yields a single U+FFFD. -/
def utf8DecodeLossy : List Nat → List Char
  | [] => []
  | b0 :: rest =>
    if b0 < 0x80 then Char.ofNat b0 :: utf8DecodeLossy rest
    else if b0 < 0xC2 then uRepl :: utf8DecodeLossy rest
    else if b0 < 0xE0 then
      match rest with
      | [] => [uRepl]
      | b1 :: rest1 =>
        if contB 0x80 0xBF b1 then
          Char.ofNat ((b0 % 32) * 64 + b1 % 64) :: utf8DecodeLossy rest1
        else uRepl :: utf8DecodeLossy (b1 :: rest1)
    else if b0 < 0xF0 then
      match rest with
      | [] => [uRepl]
      | b1 :: rest1 =>
        if contB (lo3 b0) (hi3 b0) b1 then
          match rest1 with
          | [] => [uRepl]
          | b2 :: rest2 =>
            if contB 0x80 0xBF b2 then
              Char.ofNat ((b0 % 16) * 4096 + (b1 % 64) * 64 + b2 % 64) :: utf8DecodeLossy rest2
            else uRepl :: utf8DecodeLossy (b2 :: rest2)
        else uRepl :: utf8DecodeLossy (b1 :: rest1)
    else if b0 < 0xF5 then
      match rest with
      | [] => [uRepl]
      | b1 :: rest1 =>
        if contB (lo4 b0) (hi4 b0) b1 then
          match rest1 with
          | [] => [uRepl]
          | b2 :: rest2 =>
            if contB 0x80 0xBF b2 then
              match rest2 with
              | [] => [uRepl]
              | b3 :: rest3 =>
                if contB 0x80 0xBF b3 then
                  Char.ofNat ((b0 % 8) * 262144 + (b1 % 64) * 4096 + (b2 % 64) * 64 + b3 % 64)
                    :: utf8DecodeLossy rest3
                else uRepl :: utf8DecodeLossy (b3 :: rest3)
            else uRepl :: utf8DecodeLossy (b2 :: rest2)
        else uRepl :: utf8DecodeLossy (b1 :: rest1)
    else uRepl :: utf8DecodeLossy rest

/-! ### Frame building and chunking -/

/-- The wire frame (src/kaleidoscope/src/lib.rs line 73 and
src/src/main.rs line 137): concatenate the singleton command list with the
argument list, join with single spaces, append one newline. -/
def frameOf (command : List Char) (args : List (List Char)) : List Char :=
  joinWith ([' ']) ([command] ++ args) ++ ['\n']

/-- Rust `slice::chunks(c)`: successive chunks of `c` elements, in order,
the last possibly shorter.  The `c = 0` case is unreachable in this model
because the callers below model the Rust panic explicitly before chunking. -/
def sliceChunks (c : Nat) : List Nat → List (List Nat)
  | [] => []
  | b :: bs =>
    if _h : c = 0 then []
    else List.take c (b :: bs) :: sliceChunks c (List.drop c (b :: bs))
termination_by l => l.length
decreasing_by
  simp only [List.length_drop, List.length_cons]
  omega

/-- Concatenation of a list of byte chunks, in order. -/
def concatAll : List (List Nat) → List Nat
  | [] => []
  | x :: xs => x ++ concatAll xs

/-! ### The serial port oracle -/

/-- Outcome of one `SerialPort::read` call: `Ok(t)` delivering bytes,
a `TimedOut`-kind error, or a fatal I/O error of some other kind
(identified by an error code). -/
inductive ReadOutcome where
  | data (bytes : List Nat)
  | timedOut
  | fatal (e : Nat)
deriving DecidableEq

/-- Outcome of one `bytes_to_read` call: a byte count, or an I/O error. -/
inductive PollOutcome where
  | avail (n : Nat)
  | fail (e : Nat)
deriving DecidableEq

/-- One observable action on the serial port, in call order. -/
inductive Event where
  | writeDTR
  | readDSR
  | poll
  | readCall
  | writeChunk (bytes : List Nat)
  | sleep
deriving DecidableEq

/-- The port: one outcome script per fallible operation (`none` in an
`Option Nat` script means success, `some e` an I/O error with code `e`),
plus the trace of events so far. -/
structure Port where
  dtrOutcomes : List (Option Nat)
  dsrOutcomes : List (Option Nat)
  pollOutcomes : List PollOutcome
  writeOutcomes : List (Option Nat)
  readOutcomes : List ReadOutcome
  events : List Event
deriving DecidableEq

/-- A port with the given scripts and an empty trace. -/
def mkPort (dtr dsr : List (Option Nat)) (polls : List PollOutcome)
    (writes : List (Option Nat)) (reads : List ReadOutcome) : Port :=
  ⟨dtr, dsr, polls, writes, reads, []⟩

/-- `write_data_terminal_ready(true)`: consume one DTR outcome
(success when the script is spent) and record the call. -/
def consumeDTR (p : Port) : Option Nat × Port :=
  match p.dtrOutcomes with
  | [] => (none, { p with events := p.events ++ [Event.writeDTR] })
  | o :: rest => (o, { p with dtrOutcomes := rest, events := p.events ++ [Event.writeDTR] })

/-- `read_data_set_ready()`: consume one DSR outcome and record the call. -/
def consumeDSR (p : Port) : Option Nat × Port :=
  match p.dsrOutcomes with
  | [] => (none, { p with events := p.events ++ [Event.readDSR] })
  | o :: rest => (o, { p with dsrOutcomes := rest, events := p.events ++ [Event.readDSR] })

/-! ### The write path -/

/-- The chunk loop of `Focus::request_with_progress`
(src/kaleidoscope/src/lib.rs lines 78-82) and of `send_request`
(src/src/main.rs lines 147-151): for each chunk, `write_all` it, then
sleep the pacing delay; a write error aborts immediately and is
propagated.  Arguments: remaining chunks and remaining write-outcome
script; returns the result, the remaining script, and the events emitted
(the progress callbacks perform no port I/O and leave no trace). -/
def sendChunksS : List (List Nat) → List (Option Nat) →
    Except Nat Unit × List (Option Nat) × List Event
  | [], ws => (Except.ok (), ws, [])
  | ch :: _, some e :: ws1 => (Except.error e, ws1, [Event.writeChunk ch])
  | ch :: rest, none :: ws1 =>
    ((sendChunksS rest ws1).1, (sendChunksS rest ws1).2.1,
      Event.writeChunk ch :: Event.sleep :: (sendChunksS rest ws1).2.2)
  | ch :: rest, [] =>
    ((sendChunksS rest []).1, (sendChunksS rest []).2.1,
      Event.writeChunk ch :: Event.sleep :: (sendChunksS rest []).2.2)

/-- The session configuration of `Focus`
(src/kaleidoscope/src/lib.rs lines 21-25). -/
structure Focus where
  chunkSize : Nat
  writeDelay : Nat

/-- `impl From for Focus` (lines 27-35): default chunk size 32,
write delay 500 ms. -/
def Focus.fromPort : Focus := ⟨32, 500⟩

/-- The `chunk_size` setter (lines 38-41): unguarded assignment. -/
def Focus.chunk_size (f : Focus) (c : Nat) : Focus := { f with chunkSize := c }

/-- The `write_delay` setter (lines 43-46): unguarded assignment. -/
def Focus.write_delay (f : Focus) (d : Nat) : Focus := { f with writeDelay := d }

/-- `Focus::request_with_progress` (src/kaleidoscope/src/lib.rs lines
62-85): build the frame, assert DTR, then write it in chunks of
`chunk_size` bytes with a pacing sleep after every chunk.  `args` is the
Rust `Option<Vec<String>>`, defaulted to the empty list.  The result is
`none` when the call panics: `chunks(0)` panics when `chunk_size` is 0,
reached only after the DTR write succeeded. -/
def Focus.request_with_progress (f : Focus) (command : List Char)
    (args : Option (List (List Char))) (p : Port) : Option (Except Nat Unit × Port) :=
  let req := utf8Encode (frameOf command (args.getD []))
  match consumeDTR p with
  | (some e, p1) => some (Except.error e, p1)
  | (none, p1) =>
    if f.chunkSize = 0 then none
    else
      match sendChunksS (sliceChunks f.chunkSize req) p1.writeOutcomes with
      | (r, ws, evs) => some (r, { p1 with writeOutcomes := ws, events := p1.events ++ evs })

/-- `Focus::request` (src/kaleidoscope/src/lib.rs lines 54-60):
`request_with_progress` with no-op callbacks. -/
def Focus.request (f : Focus) (command : List Char)
    (args : Option (List (List Char))) (p : Port) : Option (Except Nat Unit × Port) :=
  f.request_with_progress command args p

/-! ### The read path -/

/-- `Focus::wait_for_data` (src/kaleidoscope/src/lib.rs lines 118-123):
poll `bytes_to_read`, sleeping between polls, until it reports at least
one byte; an I/O error of the poll is propagated.  Returns the result,
the remaining poll script, and the events emitted. -/
def waitS : List PollOutcome → Except Nat Unit × List PollOutcome × List Event
  | [] => (Except.ok (), [], [Event.poll])
  | PollOutcome.fail e :: rest => (Except.error e, rest, [Event.poll])
  | PollOutcome.avail 0 :: rest =>
    ((waitS rest).1, (waitS rest).2.1, Event.poll :: Event.sleep :: (waitS rest).2.2)
  | PollOutcome.avail (_ + 1) :: rest => (Except.ok (), rest, [Event.poll])

/-- The collection loop shared by `Focus::read_reply`
(src/kaleidoscope/src/lib.rs lines 94-108) and `read_reply`
(src/src/main.rs lines 174-186): `read` into a scratch buffer; on `Ok(t)`
append the bytes to the accumulator and sleep; on a `TimedOut`-kind error
break with the accumulator; on any other error return it.  Arguments:
remaining read script and accumulator; returns the result, the remaining
script, and the events emitted. -/
def readLoopS : List ReadOutcome → List Nat →
    Except Nat (List Nat) × List ReadOutcome × List Event
  | [], acc => (Except.ok acc, [], [Event.readCall])
  | ReadOutcome.data bs :: rest, acc =>
    ((readLoopS rest (acc ++ bs)).1, (readLoopS rest (acc ++ bs)).2.1,
      Event.readCall :: Event.sleep :: (readLoopS rest (acc ++ bs)).2.2)
  | ReadOutcome.timedOut :: rest, acc => (Except.ok acc, rest, [Event.readCall])
  | ReadOutcome.fatal e :: rest, _acc => (Except.error e, rest, [Event.readCall])

/-- The collection loop again, with the reads given as an infinite
schedule `reads : Nat -> ReadOutcome` and an explicit step budget, to
state termination: `none` means the budget was exhausted with the loop
still running.  Arguments: schedule, budget, next read index, accumulator. -/
def readLoopF (reads : Nat → ReadOutcome) : Nat → Nat → List Nat →
    Option (Except Nat (List Nat))
  | 0, _, _ => none
  | fuel + 1, i, acc =>
    match reads i with
    | ReadOutcome.data bs => readLoopF reads fuel (i + 1) (acc ++ bs)
    | ReadOutcome.timedOut => some (Except.ok acc)
    | ReadOutcome.fatal e => some (Except.error e)

/-- `Focus::read_reply` (src/kaleidoscope/src/lib.rs lines 87-116):
assert DSR, wait for the first byte, run the collection loop, then decode
lossily and clean the lines (the inline code identical to
`cleanup_reply`).  Every error is propagated and discards the
accumulated bytes. -/
def Focus.read_reply (p : Port) : Except Nat (List Char) × Port :=
  match consumeDSR p with
  | (some e, p1) => (Except.error e, p1)
  | (none, p1) =>
    match waitS p1.pollOutcomes with
    | (Except.error e, polls1, evW) =>
      (Except.error e, { p1 with pollOutcomes := polls1, events := p1.events ++ evW })
    | (Except.ok _, polls1, evW) =>
      match readLoopS p1.readOutcomes [] with
      | (Except.error e, reads1, evR) =>
        (Except.error e,
          { p1 with pollOutcomes := polls1, readOutcomes := reads1,
                    events := p1.events ++ evW ++ evR })
      | (Except.ok raw, reads1, evR) =>
        (Except.ok (cleanupReply (utf8DecodeLossy raw)),
          { p1 with pollOutcomes := polls1, readOutcomes := reads1,
                    events := p1.events ++ evW ++ evR })

/-- The composition performed by the callers of the library
(`Focus::flush`, src/kaleidoscope/src/lib.rs lines 48-52, and `main` in
src/src/main.rs): a `request` followed by a `read_reply`, stopping at the
first error of either phase; `none` when `request` panicked. -/
def Focus.requestAndRead (f : Focus) (command : List Char)
    (args : Option (List (List Char))) (p : Port) :
    Option (Except Nat (List Char) × Port) :=
  match f.request command args p with
  | none => none
  | some (Except.error e, p1) => some (Except.error e, p1)
  | some (Except.ok _, p1) => some (Focus.read_reply p1)

/-! ### The CLI binary (src/src/main.rs) -/

/-- `send_request` (src/src/main.rs lines 131-157): same as the library
send path with a fixed chunk size of 64 bytes and a 50 ms delay (the
progress bar performs no port I/O). -/
def mainSendRequest (command : List Char) (args : List (List Char)) (p : Port) :
    Except Nat Unit × Port :=
  let req := utf8Encode (frameOf command args)
  match consumeDTR p with
  | (some e, p1) => (Except.error e, p1)
  | (none, p1) =>
    match sendChunksS (sliceChunks 64 req) p1.writeOutcomes with
    | (r, ws, evs) => (r, { p1 with writeOutcomes := ws, events := p1.events ++ evs })

/-- `wait_for_data` (src/src/main.rs lines 159-163): poll `bytes_to_read`
until nonzero, sleeping between polls; an error of the poll panics
(`expect`), modelled as `none`. -/
def mainWaitForData : List PollOutcome → Option (List PollOutcome × List Event)
  | [] => some ([], [Event.poll])
  | PollOutcome.fail _ :: _ => none
  | PollOutcome.avail 0 :: rest =>
    match mainWaitForData rest with
    | none => none
    | some (polls1, evs) => some (polls1, Event.poll :: Event.sleep :: evs)
  | PollOutcome.avail (_ + 1) :: rest => some (rest, [Event.poll])

/-- `read_reply` (src/src/main.rs lines 165-187): assert DSR, run the
collection loop (no waiting phase inside this function), then decode
lossily and `cleanup_reply`. -/
def mainReadReply (p : Port) : Except Nat (List Char) × Port :=
  match consumeDSR p with
  | (some e, p1) => (Except.error e, p1)
  | (none, p1) =>
    match readLoopS p1.readOutcomes [] with
    | (Except.error e, reads1, evR) =>
      (Except.error e, { p1 with readOutcomes := reads1, events := p1.events ++ evR })
    | (Except.ok raw, reads1, evR) =>
      (Except.ok (cleanupReply (utf8DecodeLossy raw)),
        { p1 with readOutcomes := reads1, events := p1.events ++ evR })

/-- `flush` (src/src/main.rs lines 123-129): send the single-space
command, wait for data, read and discard the reply; every failure panics
(`expect`), modelled as `none`. -/
def mainFlush (p : Port) : Option Port :=
  match mainSendRequest ((" ").toList) [] p with
  | (Except.error _, _) => none
  | (Except.ok _, p1) =>
    match mainWaitForData p1.pollOutcomes with
    | none => none
    | some (polls1, evs) =>
      match mainReadReply { p1 with pollOutcomes := polls1, events := p1.events ++ evs } with
      | (Except.error _, _) => none
      | (Except.ok _, p3) => some p3

/-! ### Trace observations -/

/-- Number of chunk-write calls in a trace. -/
def countWrites (evs : List Event) : Nat :=
  evs.countP (fun e => match e with | Event.writeChunk _ => true | _ => false)

/-- Number of pacing sleeps in a trace. -/
def countSleeps (evs : List Event) : Nat :=
  evs.countP (fun e => match e with | Event.sleep => true | _ => false)

/-- Number of read calls in a trace. -/
def countReads (evs : List Event) : Nat :=
  evs.countP (fun e => match e with | Event.readCall => true | _ => false)

/-- The expected write-phase trace for a chunk list: each chunk written
and followed by one pacing sleep, the last included. -/
def pacedEvents : List (List Nat) → List Event
  | [] => []
  | ch :: rest => Event.writeChunk ch :: Event.sleep :: pacedEvents rest

/-- True iff no `bytes_to_read` poll and no read call occurs strictly
before the first DSR (ready-to-receive) assertion of the trace. -/
def dsrFirst : List Event → Bool
  | [] => true
  | Event.readDSR :: _ => true
  | Event.poll :: _ => false
  | Event.readCall :: _ => false
  | _ :: rest => dsrFirst rest

/-- The full byte-to-string normalization applied to a raw reply by both
`read_reply` implementations: lossy UTF-8 decoding followed by
`cleanup_reply`. -/
def normalizeBytes (bs : List Nat) : List Char :=
  cleanupReply (utf8DecodeLossy bs)

/-! ### Helper lemmas: chunking -/

/-- A nonempty list no longer than the chunk size yields a single chunk. -/
theorem sliceChunks_single (c : Nat) (l : List Nat) (hl : l ≠ [])
    (hlen : l.length ≤ c) (hc : 0 < c) : sliceChunks c l = [l] := by
  cases l with
  | nil => exact absurd rfl hl
  | cons b bs =>
    rw [sliceChunks, dif_neg (Nat.pos_iff_ne_zero.mp hc)]
    rw [List.take_of_length_le hlen, List.drop_eq_nil_of_le hlen]
    simp [sliceChunks]

/-- Combined chunking spec: the chunks concatenate back to the input, there
are exactly the ceiling of length over chunk size of them, and each is at
most the chunk size long. -/
theorem sliceChunks_spec (c : Nat) (hc : 0 < c) :
    ∀ (n : Nat) (l : List Nat), l.length ≤ n →
      concatAll (sliceChunks c l) = l ∧
      (sliceChunks c l).length = (l.length + c - 1) / c ∧
      ∀ ch ∈ sliceChunks c l, ch.length ≤ c := by
  intro n
  induction n with
  | zero =>
    intro l hl
    have hnil : l = [] := List.eq_nil_of_length_eq_zero (Nat.le_zero.mp hl)
    subst hnil
    refine ⟨by simp [sliceChunks, concatAll], ?_, by intro ch hch; simp [sliceChunks] at hch⟩
    simp only [sliceChunks, List.length_nil]
    rw [Nat.div_eq_of_lt (by omega)]
  | succ n ih =>
    intro l hl
    cases l with
    | nil =>
      refine ⟨by simp [sliceChunks, concatAll], ?_, by intro ch hch; simp [sliceChunks] at hch⟩
      simp only [sliceChunks, List.length_nil]
      rw [Nat.div_eq_of_lt (by omega)]
    | cons b bs =>
      simp only [List.length_cons] at hl
      have hrec := ih (List.drop c (b :: bs))
        (by simp only [List.length_drop, List.length_cons]; omega)
      rw [sliceChunks, dif_neg (Nat.pos_iff_ne_zero.mp hc)]
      refine ⟨?_, ?_, ?_⟩
      · simp only [concatAll, hrec.1, List.take_append_drop]
      · simp only [List.length_cons, hrec.2.1, List.length_drop]
        by_cases hcase : bs.length + 1 ≤ c
        · have h0 : bs.length + 1 - c = 0 := by omega
          have h1 : 0 + c - 1 = c - 1 := by omega
          have h2 : bs.length + 1 + c - 1 = bs.length + c := by omega
          rw [h0, h1, h2, Nat.add_div_right _ hc,
            Nat.div_eq_of_lt (show c - 1 < c by omega),
            Nat.div_eq_of_lt (show bs.length < c by omega)]
        · have h3 : bs.length + 1 - c + c - 1 = (bs.length + 1 - c - 1) + c := by omega
          have h2 : bs.length + 1 + c - 1 = ((bs.length + 1 - c - 1) + c) + c := by omega
          rw [h3, h2]
          simp only [Nat.add_div_right _ hc]
      · intro ch hch
        rcases List.mem_cons.mp hch with hhd | htl
        · subst hhd
          rw [List.length_take]
          exact Nat.min_le_left _ _
        · exact hrec.2.2 ch htl

/-! ### Helper lemmas: the oracle scripts -/

/-- With a spent (all-success) write script every chunk is written and
followed by one sleep. -/
theorem sendChunksS_ok : ∀ chunks : List (List Nat),
    sendChunksS chunks [] = (Except.ok (), [], pacedEvents chunks) := by
  intro chunks
  induction chunks with
  | nil => rfl
  | cons ch rest ih => simp [sendChunksS, pacedEvents, ih]

/-- Prepending a chunk write bumps the write count. -/
theorem countWrites_write (ch : List Nat) (l : List Event) :
    countWrites (Event.writeChunk ch :: l) = countWrites l + 1 := by
  simp [countWrites, List.countP_cons]

/-- Prepending a sleep leaves the write count unchanged. -/
theorem countWrites_sleep (l : List Event) :
    countWrites (Event.sleep :: l) = countWrites l := by
  simp [countWrites, List.countP_cons]

/-- Prepending the DTR assertion leaves the write count unchanged. -/
theorem countWrites_dtr (l : List Event) :
    countWrites (Event.writeDTR :: l) = countWrites l := by
  simp [countWrites, List.countP_cons]

/-- Prepending a chunk write leaves the sleep count unchanged. -/
theorem countSleeps_write (ch : List Nat) (l : List Event) :
    countSleeps (Event.writeChunk ch :: l) = countSleeps l := by
  simp [countSleeps, List.countP_cons]

/-- Prepending a sleep bumps the sleep count. -/
theorem countSleeps_sleep (l : List Event) :
    countSleeps (Event.sleep :: l) = countSleeps l + 1 := by
  simp [countSleeps, List.countP_cons]

/-- Prepending the DTR assertion leaves the sleep count unchanged. -/
theorem countSleeps_dtr (l : List Event) :
    countSleeps (Event.writeDTR :: l) = countSleeps l := by
  simp [countSleeps, List.countP_cons]

/-- Write and sleep counts of the paced trace both equal the chunk count. -/
theorem pacedEvents_counts : ∀ chunks : List (List Nat),
    countWrites (pacedEvents chunks) = chunks.length ∧
    countSleeps (pacedEvents chunks) = chunks.length := by
  intro chunks
  induction chunks with
  | nil => exact ⟨rfl, rfl⟩
  | cons ch rest ih =>
    refine ⟨?_, ?_⟩
    · rw [pacedEvents, countWrites_write, countWrites_sleep, ih.1, List.length_cons]
    · rw [pacedEvents, countSleeps_write, countSleeps_sleep, ih.2, List.length_cons]

/-- Polling through any number of zero-byte reports succeeds. -/
theorem waitS_zeros : ∀ k : Nat, ∃ ev,
    waitS (List.replicate k (PollOutcome.avail 0)) = (Except.ok (), [], ev) := by
  intro k
  induction k with
  | zero => exact ⟨[Event.poll], rfl⟩
  | succ n ih =>
    obtain ⟨ev, hev⟩ := ih
    exact ⟨Event.poll :: Event.sleep :: ev, by rw [List.replicate_succ]; simp [waitS, hev]⟩

/-- The collection loop on a script of data reads followed by a timeout
returns the accumulator extended by all the data, and stops at the
timeout. -/
theorem readLoopS_data : ∀ (ds : List (List Nat)) (rest : List ReadOutcome) (acc : List Nat),
    ∃ ev, readLoopS (List.map ReadOutcome.data ds ++ ReadOutcome.timedOut :: rest) acc =
      (Except.ok (acc ++ concatAll ds), rest, ev) := by
  intro ds
  induction ds with
  | nil =>
    intro rest acc
    exact ⟨[Event.readCall], by simp [readLoopS, concatAll]⟩
  | cons d ds ih =>
    intro rest acc
    obtain ⟨ev, hev⟩ := ih rest (acc ++ d)
    refine ⟨Event.readCall :: Event.sleep :: ev, ?_⟩
    simp [readLoopS, hev, concatAll]

/-- The collection loop on a script of data reads followed by a fatal
error returns exactly that error; the accumulated bytes are gone. -/
theorem readLoopS_fatal : ∀ (ds : List (List Nat)) (e : Nat) (rest : List ReadOutcome)
    (acc : List Nat),
    ∃ ev, readLoopS (List.map ReadOutcome.data ds ++ ReadOutcome.fatal e :: rest) acc =
      (Except.error e, rest, ev) := by
  intro ds
  induction ds with
  | nil =>
    intro e rest acc
    exact ⟨[Event.readCall], by simp [readLoopS]⟩
  | cons d ds ih =>
    intro e rest acc
    obtain ⟨ev, hev⟩ := ih e rest (acc ++ d)
    refine ⟨Event.readCall :: Event.sleep :: ev, ?_⟩
    simp [readLoopS, hev]

/-- Encoding distributes over concatenation. -/
theorem utf8Encode_append : ∀ a b : List Char,
    utf8Encode (a ++ b) = utf8Encode a ++ utf8Encode b := by
  intro a b
  induction a with
  | nil => rfl
  | cons c cs ih => simp [utf8Encode, ih]

/-- A single scalar always encodes to at least one byte. -/
theorem utf8EncodeChar_ne_nil (ch : Char) : utf8EncodeChar ch ≠ [] := by
  simp only [utf8EncodeChar]
  split_ifs <;> simp

/-- The encoded frame is never empty (it always ends in the newline). -/
theorem utf8Encode_frame_pos (command : List Char) (args : List (List Char)) :
    0 < (utf8Encode (frameOf command args)).length := by
  unfold frameOf
  rw [utf8Encode_append]
  simp only [List.length_append, utf8Encode]
  have h := utf8EncodeChar_ne_nil '\n'
  cases hch : utf8EncodeChar '\n' with
  | nil => exact absurd hch h
  | cons x xs => simp

/-! ### Helper lemmas: line splitting -/

/-- Every piece produced by the inclusive split carries a newline only in
its final position. -/
theorem splitInclusiveNl_pieces : ∀ s : List Char, ∀ p ∈ splitInclusiveNl s,
    '\n' ∉ p.dropLast := by
  intro s
  induction s with
  | nil => intro p hp; simp [splitInclusiveNl] at hp
  | cons c rest ih =>
    intro p hp
    by_cases hc : c = '\n'
    · subst hc
      rw [splitInclusiveNl, if_pos rfl] at hp
      rcases List.mem_cons.mp hp with h1 | h2
      · subst h1; simp
      · exact ih p h2
    · rw [splitInclusiveNl, if_neg hc] at hp
      cases hsp : splitInclusiveNl rest with
      | nil =>
        simp only [hsp] at hp
        rcases List.mem_singleton.mp hp with rfl
        simp
      | cons q qs =>
        simp only [hsp] at hp
        rcases List.mem_cons.mp hp with h1 | h2
        · subst h1
          cases q with
          | nil => simp
          | cons x xs =>
            have hq : '\n' ∉ (x :: xs).dropLast :=
              ih (x :: xs) (by rw [hsp]; exact List.mem_cons_self _ _)
            intro hmem
            rw [List.dropLast_cons₂] at hmem
            rcases List.mem_cons.mp hmem with h | h
            · exact hc h.symm
            · exact hq h
        · exact ih p (by rw [hsp]; exact List.mem_cons_of_mem _ h2)

/-- Stripping a terminator from a piece leaves no newline in it. -/
theorem lineStrip_noNl_of_piece (p : List Char) (hp : '\n' ∉ p.dropLast) :
    '\n' ∉ lineStrip p := by
  unfold lineStrip
  by_cases h1 : p.getLast? = some '\n'
  · rw [if_pos h1]
    by_cases h2 : p.dropLast.getLast? = some '\r'
    · rw [if_pos h2]
      intro hmem
      exact hp ((List.dropLast_sublist _).subset hmem)
    · rw [if_neg h2]
      exact hp
  · rw [if_neg h1]
    intro hmem
    cases p with
    | nil => simp at hmem
    | cons a as =>
      have hnn : (a :: as) ≠ ([] : List Char) := by simp
      rw [← List.dropLast_append_getLast hnn] at hmem
      rcases List.mem_append.mp hmem with h | h
      · exact hp h
      · apply h1
        rw [List.getLast?_eq_getLast _ hnn, ← List.mem_singleton.mp h]

/-- No line returned by the line splitter contains a newline. -/
theorem rustLines_noNl (s : List Char) : ∀ l ∈ rustLines s, '\n' ∉ l := by
  intro l hl
  rcases List.mem_map.mp hl with ⟨p, hp, rfl⟩
  exact lineStrip_noNl_of_piece p (splitInclusiveNl_pieces s p hp)

/-- A nonempty newline-free string is a single piece. -/
theorem splitInclusiveNl_noNl : ∀ l : List Char, '\n' ∉ l → l ≠ [] →
    splitInclusiveNl l = [l] := by
  intro l
  induction l with
  | nil => intro _ h; exact absurd rfl h
  | cons c cs ih =>
    intro hnl _
    have hc : ¬ c = '\n' := fun h => hnl (by rw [h]; exact List.mem_cons_self _ _)
    cases cs with
    | nil => simp [splitInclusiveNl, hc]
    | cons d ds =>
      have hrec := ih (fun h => hnl (List.mem_cons_of_mem _ h)) (by simp)
      rw [splitInclusiveNl, if_neg hc, hrec]

/-- Splitting a newline-free prefix followed by a newline peels off one
piece. -/
theorem splitInclusiveNl_append (rest : List Char) :
    ∀ l : List Char, '\n' ∉ l →
      splitInclusiveNl (l ++ '\n' :: rest) = (l ++ ['\n']) :: splitInclusiveNl rest := by
  intro l
  induction l with
  | nil => intro _; simp [splitInclusiveNl]
  | cons c cs ih =>
    intro hnl
    have hc : ¬ c = '\n' := fun h => hnl (by rw [h]; exact List.mem_cons_self _ _)
    have hrec := ih (fun h => hnl (List.mem_cons_of_mem _ h))
    simp only [List.cons_append]
    rw [splitInclusiveNl, if_neg hc, hrec]

/-- Stripping a piece that ends in a newline not preceded by a carriage
return recovers the line. -/
theorem lineStrip_concat_nl (l : List Char) (h : l.getLast? ≠ some '\r') :
    lineStrip (l ++ ['\n']) = l := by
  unfold lineStrip
  rw [if_pos (List.getLast?_concat l)]
  simp only [List.dropLast_concat]
  rw [if_neg h]

/-- A newline-free line is left untouched by the strip. -/
theorem lineStrip_noNl (l : List Char) (h : '\n' ∉ l) : lineStrip l = l := by
  unfold lineStrip
  rw [if_neg (fun hl => h (List.mem_of_mem_getLast? (Option.mem_def.mpr hl)))]

/-- Joining then re-splitting a list of nonempty newline-free lines none
of which ends in a carriage return is the identity. -/
theorem rustLines_joinWith : ∀ ls : List (List Char),
    (∀ l ∈ ls, l ≠ [] ∧ '\n' ∉ l ∧ l.getLast? ≠ some '\r') →
    rustLines (joinWith (['\n']) ls) = ls := by
  intro ls
  induction ls with
  | nil => intro _; simp [joinWith, rustLines, splitInclusiveNl]
  | cons x ls ih =>
    intro h
    cases ls with
    | nil =>
      obtain ⟨hne, hnl, _⟩ := h x (List.mem_cons_self _ _)
      unfold rustLines
      simp only [joinWith]
      rw [splitInclusiveNl_noNl x hnl hne]
      simp [lineStrip_noNl x hnl]
    | cons y ls2 =>
      obtain ⟨hne, hnl, hcr⟩ := h x (List.mem_cons_self _ _)
      have hrest := ih (fun l hl => h l (List.mem_cons_of_mem _ hl))
      unfold rustLines at hrest ⊢
      simp only [joinWith]
      have hstep : x ++ [' '].tail ++ ('\n' :: joinWith (['\n']) (y :: ls2)) =
          x ++ '\n' :: joinWith (['\n']) (y :: ls2) := by simp
      have hj : x ++ ['\n'] ++ joinWith (['\n']) (y :: ls2) =
          x ++ '\n' :: joinWith (['\n']) (y :: ls2) := by simp
      rw [hj, splitInclusiveNl_append _ x hnl, List.map_cons,
        lineStrip_concat_nl x hcr, hrest]

/-! ### Claims -/

/-- C4: for every command token and argument list the encoded frame is the
command and arguments joined by single spaces with exactly one trailing
newline; the led.at example and the single-space flush command with empty
arguments are as specified. -/
theorem frame_encoding_spec :
    (∀ command args, frameOf command args = joinWith ([' ']) (command :: args) ++ ['\n']) ∧
    frameOf (("led.at").toList) [("1").toList, ("2").toList, ("red").toList] =
      ("led.at 1 2 red\n").toList ∧
    frameOf ((" ").toList) [] = (" \n").toList :=
  ⟨fun _ _ => rfl, by decide, by decide⟩

/-- C5: chunking is a lossless partition: for every frame and every chunk
size above zero the chunks concatenate back to the frame in order, each
chunk at most the chunk size long. -/
theorem chunking_lossless_partition (command : List Char) (args : List (List Char))
    (c : Nat) (hc : 0 < c) :
    concatAll (sliceChunks c (utf8Encode (frameOf command args))) =
      utf8Encode (frameOf command args) ∧
    ∀ ch ∈ sliceChunks c (utf8Encode (frameOf command args)), ch.length ≤ c := by
  have h := sliceChunks_spec c hc (utf8Encode (frameOf command args)).length _ le_rfl
  exact ⟨h.1, h.2.2⟩

/-- Witness for C5 at the command ab with chunk size 3. -/
theorem chunking_lossless_partition_witness :
    0 < 3 ∧
    (concatAll (sliceChunks 3 (utf8Encode (frameOf (("ab").toList) []))) =
        utf8Encode (frameOf (("ab").toList) []) ∧
      ∀ ch ∈ sliceChunks 3 (utf8Encode (frameOf (("ab").toList) [])), ch.length ≤ 3) :=
  ⟨by decide, chunking_lossless_partition (("ab").toList) [] 3 (by decide)⟩

/-- C7: normalization is lossy decoding, line splitting, dropping empty
and sentinel lines, and rejoining with single newlines; the given example
and the empty input evaluate as specified. -/
theorem normalizer_filtering_spec :
    (∀ bs, normalizeBytes bs =
      joinWith (['\n']) ((rustLines (utf8DecodeLossy bs)).filter keepLine)) ∧
    normalizeBytes (utf8Encode (("line1\nline2\r\n.\n\n").toList)) = ("line1\nline2").toList ∧
    normalizeBytes [] = [] :=
  ⟨fun _ => rfl, by decide, by decide⟩

/-- C8 counterexample: normalization is not idempotent on all inputs: the
bytes of the string a CR CR LF b normalize to a CR LF b, whose second
normalization strips the now-terminal carriage return. -/
theorem normalize_not_idempotent :
    normalizeBytes (utf8Encode (normalizeBytes (utf8Encode (("a\r\r\nb").toList)))) ≠
      normalizeBytes (utf8Encode (("a\r\r\nb").toList)) := by decide

/-- C8 (amended): normalization is idempotent on every input none of whose
surviving lines ends in a carriage return, because then it introduces no
new blank, sentinel, or terminator-bearing lines. -/
theorem normalize_idempotent_no_cr (x : List Char)
    (h : ∀ l ∈ (rustLines x).filter keepLine, l.getLast? ≠ some '\r') :
    cleanupReply (cleanupReply x) = cleanupReply x := by
  have hprops : ∀ l ∈ (rustLines x).filter keepLine,
      l ≠ [] ∧ '\n' ∉ l ∧ l.getLast? ≠ some '\r' := by
    intro l hl
    refine ⟨?_, rustLines_noNl x l (List.mem_of_mem_filter hl), h l hl⟩
    intro hnil
    have hk := List.of_mem_filter hl
    rw [hnil] at hk
    simp [keepLine] at hk
  unfold cleanupReply
  rw [rustLines_joinWith _ hprops,
    List.filter_eq_self.mpr (fun l hl => List.of_mem_filter hl)]

/-- Witness for the amended C8 on a reply with no carriage returns. -/
theorem normalize_idempotent_no_cr_witness :
    (∀ l ∈ (rustLines (("ab\n.\ncd").toList)).filter keepLine, l.getLast? ≠ some '\r') ∧
    cleanupReply (cleanupReply (("ab\n.\ncd").toList)) = cleanupReply (("ab\n.\ncd").toList) :=
  ⟨by decide, normalize_idempotent_no_cr _ (by decide)⟩

/-- C3: a fatal read error after any number of successful reads aborts the
collection loop with exactly that error, discarding the accumulated bytes,
both at the loop and through the whole read_reply. -/
theorem fatal_error_aborts_collection (ds : List (List Nat)) (e : Nat)
    (rest : List ReadOutcome) (acc : List Nat) :
    (readLoopS (List.map ReadOutcome.data ds ++ ReadOutcome.fatal e :: rest) acc).1 =
      Except.error e ∧
    (Focus.read_reply (mkPort [] [] [] []
        (List.map ReadOutcome.data ds ++ ReadOutcome.fatal e :: rest))).1 =
      Except.error e := by
  obtain ⟨ev, hev⟩ := readLoopS_fatal ds e rest acc
  obtain ⟨ev0, hev0⟩ := readLoopS_fatal ds e rest []
  constructor
  · rw [hev]
  · simp [Focus.read_reply, consumeDSR, mkPort, waitS, hev0]

/-- The one-step unfolding of the fuelled collection loop. -/
theorem readLoopF_succ (reads : Nat → ReadOutcome) (fuel i : Nat) (acc : List Nat) :
    readLoopF reads (fuel + 1) i acc =
      (match reads i with
      | ReadOutcome.data bs => readLoopF reads fuel (i + 1) (acc ++ bs)
      | ReadOutcome.timedOut => some (Except.ok acc)
      | ReadOutcome.fatal e => some (Except.error e)) := rfl

/-- C2: a read script of one data chunk followed only by timeouts makes
the collection loop return exactly that chunk; with the reads given as an
infinite schedule the loop stops within two steps, so it does not block. -/
theorem timeout_terminates_collection (chunk : List Nat) (rest : List ReadOutcome)
    (reads : Nat → ReadOutcome)
    (h1 : ∀ r ∈ rest, r = ReadOutcome.timedOut)
    (h2 : reads 0 = ReadOutcome.data chunk)
    (h3 : ∀ i, 0 < i → reads i = ReadOutcome.timedOut) :
    (readLoopS (ReadOutcome.data chunk :: rest) []).1 = Except.ok chunk ∧
    readLoopF reads 2 0 [] = some (Except.ok chunk) := by
  constructor
  · cases rest with
    | nil => simp [readLoopS]
    | cons r rest2 =>
      have hr := h1 r (List.mem_cons_self _ _)
      subst hr
      simp [readLoopS]
  · have step1 : readLoopF reads 2 0 [] =
        (match reads 0 with
        | ReadOutcome.data bs => readLoopF reads 1 1 ([] ++ bs)
        | ReadOutcome.timedOut => some (Except.ok [])
        | ReadOutcome.fatal e => some (Except.error e)) := rfl
    rw [step1, h2]
    show readLoopF reads 1 1 chunk = some (Except.ok chunk)
    have step2 : readLoopF reads 1 1 chunk =
        (match reads 1 with
        | ReadOutcome.data bs => readLoopF reads 0 2 (chunk ++ bs)
        | ReadOutcome.timedOut => some (Except.ok chunk)
        | ReadOutcome.fatal e => some (Except.error e)) := rfl
    rw [step2, h3 1 (by omega)]

/-- Witness for C2 with one delivered byte and timeouts after it. -/
theorem timeout_terminates_collection_witness :
    (∀ r ∈ [ReadOutcome.timedOut], r = ReadOutcome.timedOut) ∧
    ((fun i => if i = 0 then ReadOutcome.data [104] else ReadOutcome.timedOut) 0 =
      ReadOutcome.data [104]) ∧
    (∀ i : Nat, 0 < i →
      (fun i => if i = 0 then ReadOutcome.data [104] else ReadOutcome.timedOut) i =
        ReadOutcome.timedOut) ∧
    ((readLoopS (ReadOutcome.data [104] :: [ReadOutcome.timedOut]) []).1 = Except.ok [104] ∧
      readLoopF (fun i => if i = 0 then ReadOutcome.data [104] else ReadOutcome.timedOut)
        2 0 [] = some (Except.ok [104])) :=
  ⟨by decide, rfl, fun _ hi => if_neg (by omega),
    timeout_terminates_collection [104] [ReadOutcome.timedOut] _ (by decide) rfl
      (fun _ hi => if_neg (by omega))⟩

/-- C6: with an all-success port, a request writes exactly the ceiling of
frame length over chunk size many chunks, with exactly one pacing sleep
per write, the last included; the frame length is always positive. -/
theorem pacing_cardinality (command : List Char) (args : Option (List (List Char)))
    (c d : Nat) (hc : 0 < c) (dsr : List (Option Nat)) (polls : List PollOutcome)
    (reads : List ReadOutcome) :
    ∃ p' : Port,
      (Focus.mk c d).request command args (mkPort [] dsr polls [] reads) =
        some (Except.ok (), p') ∧
      p'.events = Event.writeDTR ::
        pacedEvents (sliceChunks c (utf8Encode (frameOf command (args.getD [])))) ∧
      countWrites p'.events =
        ((utf8Encode (frameOf command (args.getD []))).length + c - 1) / c ∧
      countSleeps p'.events = countWrites p'.events ∧
      0 < (utf8Encode (frameOf command (args.getD []))).length := by
  refine ⟨⟨[], dsr, polls, [], reads,
    Event.writeDTR ::
      pacedEvents (sliceChunks c (utf8Encode (frameOf command (args.getD []))))⟩,
    ?_, rfl, ?_, ?_, utf8Encode_frame_pos _ _⟩
  · simp [Focus.request, Focus.request_with_progress, consumeDTR, mkPort,
      Nat.pos_iff_ne_zero.mp hc, sendChunksS_ok]
  · dsimp only
    rw [countWrites_dtr, (pacedEvents_counts _).1,
      (sliceChunks_spec c hc (utf8Encode (frameOf command (args.getD []))).length _ le_rfl).2.1]
  · dsimp only
    rw [countSleeps_dtr, countWrites_dtr, (pacedEvents_counts _).1, (pacedEvents_counts _).2]

/-- Witness for C6 at the default session configuration. -/
theorem pacing_cardinality_witness :
    0 < 32 ∧
    ∃ p' : Port,
      (Focus.mk 32 500).request (("v").toList) none (mkPort [] [] [] [] []) =
        some (Except.ok (), p') ∧
      p'.events = Event.writeDTR ::
        pacedEvents (sliceChunks 32 (utf8Encode (frameOf (("v").toList) (Option.getD none [])))) ∧
      countWrites p'.events =
        ((utf8Encode (frameOf (("v").toList) (Option.getD none []))).length + 32 - 1) / 32 ∧
      countSleeps p'.events = countWrites p'.events ∧
      0 < (utf8Encode (frameOf (("v").toList) (Option.getD none []))).length :=
  ⟨by decide, pacing_cardinality (("v").toList) none 32 500 (by decide) [] [] []⟩

/-- C10: after setting the chunk size to zero through the setter, every
request and request_with_progress whose DTR write succeeds panics at the
frame partition (Rust slice chunks with size zero), for every command. -/
theorem zero_chunk_size_panics (command : List Char) (args : Option (List (List Char)))
    (dsr : List (Option Nat)) (polls : List PollOutcome) (ws : List (Option Nat))
    (reads : List ReadOutcome) :
    (Focus.fromPort.chunk_size 0).request command args (mkPort [] dsr polls ws reads) =
      none ∧
    (Focus.fromPort.chunk_size 0).request_with_progress command args
      (mkPort [] dsr polls ws reads) = none := by
  constructor <;>
    simp [Focus.request, Focus.request_with_progress, consumeDTR, mkPort,
      Focus.chunk_size, Focus.fromPort]

/-- C9 (amended, library side): the library read_reply asserts the
ready-to-receive line before any bytes_to_read poll or read call, on every
port. -/
theorem lib_read_reply_asserts_ready_first (dtr dsr : List (Option Nat))
    (polls : List PollOutcome) (ws : List (Option Nat)) (reads : List ReadOutcome) :
    dsrFirst ((Focus.read_reply (mkPort dtr dsr polls ws reads)).2.events) = true := by
  unfold Focus.read_reply
  cases dsr with
  | nil =>
    simp only [consumeDSR, mkPort]
    rcases hw : waitS polls with ⟨r1, polls1, evW⟩
    cases r1 with
    | error e => simp [hw, dsrFirst]
    | ok u =>
      rcases hr : readLoopS reads [] with ⟨r2, reads1, evR⟩
      cases r2 with
      | error e => simp [hw, hr, dsrFirst]
      | ok raw => simp [hw, hr, dsrFirst]
  | cons o dsr2 =>
    cases o with
    | some e => simp [consumeDSR, mkPort, dsrFirst]
    | none =>
      simp only [consumeDSR, mkPort]
      rcases hw : waitS polls with ⟨r1, polls1, evW⟩
      cases r1 with
      | error e => simp [hw, dsrFirst]
      | ok u =>
        rcases hr : readLoopS reads [] with ⟨r2, reads1, evR⟩
        cases r2 with
        | error e => simp [hw, hr, dsrFirst]
        | ok raw => simp [hw, hr, dsrFirst]

/-- A port for the CLI flush cycle: one poll reporting a byte, then a
read that times out. -/
def c9Port : Port := mkPort [] [] [PollOutcome.avail 1] [] [ReadOutcome.timedOut]

/-- C9 counterexample: in the CLI flush cycle the wait-for-first-byte poll
happens before read_reply asserts the ready-to-receive line, so the cycle
trace has a bytes_to_read poll before the assertion. -/
theorem cli_flush_polls_before_ready :
    (mainFlush c9Port).map (fun p => dsrFirst p.events) = some false := by
  have hch : sliceChunks 64 (utf8Encode (frameOf ([' ']) [])) =
      [utf8Encode (frameOf ([' ']) [])] :=
    sliceChunks_single 64 _ (by decide) (by decide) (by decide)
  simp [mainFlush, mainSendRequest, consumeDTR, mkPort, c9Port, hch,
    sendChunksS, mainWaitForData, mainReadReply, consumeDSR, readLoopS, dsrFirst]

/-- A port offering a scripted reply that request never touches. -/
def c1Port : Port := mkPort [] [] [] []
  [ReadOutcome.data (utf8Encode (("x\n.\n").toList)), ReadOutcome.timedOut]

/-- C1 counterexample: request returns unit after the send phase and never
collects: on a port with a scripted reply it performs no read call and
leaves the read script untouched, so it cannot return the NormalizedReply. -/
theorem request_sends_without_collecting :
    (Focus.fromPort.request (("version").toList) none c1Port).map (fun r => r.1) =
      some (Except.ok ()) ∧
    (Focus.fromPort.request (("version").toList) none c1Port).map
      (fun r => countReads r.2.events) = some 0 ∧
    (Focus.fromPort.request (("version").toList) none c1Port).map
      (fun r => r.2.readOutcomes) = some c1Port.readOutcomes := by
  have hch : sliceChunks 32 (utf8Encode (frameOf (['v', 'e', 'r', 's', 'i', 'o', 'n']) [])) =
      [utf8Encode (frameOf (['v', 'e', 'r', 's', 'i', 'o', 'n']) [])] :=
    sliceChunks_single 32 _ (by decide) (by decide) (by decide)
  refine ⟨?_, ?_, ?_⟩ <;>
    simp [Focus.request, Focus.request_with_progress, consumeDTR, mkPort, c1Port,
      Focus.fromPort, hch, sendChunksS, countReads, List.countP_cons]

/-- C1 (amended): request performs only encode plus send, returning unit
or the first send-phase error; the reply is produced by the separate
read_reply, and the request-then-read_reply composition used by the
callers returns the normalized reply on success, or the first error of
either phase. -/
theorem request_then_read_reply_spec (command : List Char)
    (args : Option (List (List Char))) (c d : Nat) (hc : 0 < c)
    (ds : List (List Nat)) (rest : List ReadOutcome) (k : Nat) (e e2 : Nat)
    (dsr : List (Option Nat)) (polls : List PollOutcome) (ws : List (Option Nat))
    (reads : List ReadOutcome) :
    ((Focus.mk c d).request command args (mkPort [] dsr polls [] reads)).map
        (fun r => (r.1, r.2.dsrOutcomes, r.2.readOutcomes)) =
      some (Except.ok (), dsr, reads) ∧
    ((Focus.mk c d).requestAndRead command args
        (mkPort [] [] (List.replicate k (PollOutcome.avail 0)) []
          (List.map ReadOutcome.data ds ++ ReadOutcome.timedOut :: rest))).map
        (fun r => r.1) = some (Except.ok (normalizeBytes (concatAll ds))) ∧
    ((Focus.mk c d).requestAndRead command args (mkPort [some e] dsr polls ws reads)).map
        (fun r => (r.1, r.2.readOutcomes)) = some (Except.error e, reads) ∧
    ((Focus.mk c d).requestAndRead command args
        (mkPort [] [] [] []
          (List.map ReadOutcome.data ds ++ ReadOutcome.fatal e2 :: rest))).map
        (fun r => r.1) = some (Except.error e2) := by
  have hc0 := Nat.pos_iff_ne_zero.mp hc
  obtain ⟨evw, hw⟩ := waitS_zeros k
  obtain ⟨evr, hr⟩ := readLoopS_data ds rest []
  obtain ⟨evf, hf⟩ := readLoopS_fatal ds e2 rest []
  refine ⟨?_, ?_, ?_, ?_⟩
  · simp [Focus.request, Focus.request_with_progress, consumeDTR, mkPort, hc0,
      sendChunksS_ok]
  · simp [Focus.requestAndRead, Focus.request, Focus.request_with_progress,
      consumeDTR, mkPort, hc0, sendChunksS_ok, Focus.read_reply, consumeDSR,
      hw, hr, normalizeBytes]
  · simp [Focus.requestAndRead, Focus.request, Focus.request_with_progress,
      consumeDTR, mkPort]
  · simp [Focus.requestAndRead, Focus.request, Focus.request_with_progress,
      consumeDTR, mkPort, hc0, sendChunksS_ok, Focus.read_reply, consumeDSR,
      waitS, hf]

/-- Witness for the amended C1 at a one-chunk reply. -/
theorem request_then_read_reply_spec_witness :
    0 < 32 ∧
    (((Focus.mk 32 500).request (("v").toList) none (mkPort [] [] [] [] [])).map
        (fun r => (r.1, r.2.dsrOutcomes, r.2.readOutcomes)) =
      some (Except.ok (), [], []) ∧
    ((Focus.mk 32 500).requestAndRead (("v").toList) none
        (mkPort [] [] (List.replicate 0 (PollOutcome.avail 0)) []
          (List.map ReadOutcome.data [[120]] ++ ReadOutcome.timedOut :: []))).map
        (fun r => r.1) = some (Except.ok (normalizeBytes (concatAll [[120]]))) ∧
    ((Focus.mk 32 500).requestAndRead (("v").toList) none
        (mkPort [some 7] [] [] [] [])).map
        (fun r => (r.1, r.2.readOutcomes)) = some (Except.error 7, []) ∧
    ((Focus.mk 32 500).requestAndRead (("v").toList) none
        (mkPort [] [] [] []
          (List.map ReadOutcome.data [[120]] ++ ReadOutcome.fatal 9 :: []))).map
        (fun r => r.1) = some (Except.error 9)) :=
  ⟨by decide,
    request_then_read_reply_spec (("v").toList) none 32 500 (by decide)
      [[120]] [] 0 7 9 [] [] [] []⟩
